import Mathlib

/-!
Verification development for the ossh SSH connection manager
(source: src/ossh/__init__.py).

Modelling conventions:
* A program string is a `List Char`; a file is represented in two ways,
  matching the two ways the source reads it:
  - the parser (`parse_ssh_config`) reads the whole text and splits on
    newlines; we model the text as the list `content.split('\n')`, i.e. a
    list of newline-free lines (`parseRawLines`, `parseLines`);
  - the editor (`edit_server`) uses `readlines()`; we model the file as the
    list of lines as `readlines` returns them, each retaining its trailing
    newline character except possibly the last (`editConfig`).
* The regex searches of `parse_ssh_config` are translated exactly, including
  the facts that `(?:^|\n)\s*Key\s+(.+?)(?:\n|$)` anchors only at line
  starts, that `\s+` may cross a newline so the captured value can come from
  a following line, and that a directive followed by a single whitespace
  character and end of line does not match at all.
-/

/-- Python `str.strip()`: remove leading and trailing whitespace. -/
def pyStrip (cs : List Char) : List Char :=
  ((cs.dropWhile Char.isWhitespace).reverse.dropWhile Char.isWhitespace).reverse

/-- Python `str.lower()` applied characterwise, used as the sort key
in `sorted(servers, key=lambda x: x["host"].lower())`. -/
def pyLower (cs : List Char) : List Char := cs.map Char.toLower

/-- The characters of `"Host"`. -/
def hostKey : List Char := ['H', 'o', 's', 't']

/-- The characters of `"Host "` (the editor's block-boundary test string). -/
def hostSpace : List Char := ['H', 'o', 's', 't', ' ']

/-- The characters of `"HostName"`. -/
def hostNameKey : List Char := ['H', 'o', 's', 't', 'N', 'a', 'm', 'e']

/-- The characters of `"User"`. -/
def userKey : List Char := ['U', 's', 'e', 'r']

/-- The characters of `"IdentityFile"`. -/
def identityKey : List Char := ['I', 'd', 'e', 'n', 't', 'i', 't', 'y', 'F', 'i', 'l', 'e']

/-- The characters of `"Port"`. -/
def portKey : List Char := ['P', 'o', 'r', 't']

/-- The characters of `"Include"`. -/
def includeKey : List Char := ['I', 'n', 'c', 'l', 'u', 'd', 'e']

/-- Four spaces, the indentation `add_server`/`edit_server` write. -/
def spaces4 : List Char := [' ', ' ', ' ', ' ']

/-- Join block lines back into the block's text (inverse of splitting on
newlines), as a character list. -/
def joinLines : List (List Char) → List Char
  | [] => []
  | [l] => l
  | l :: ls => l ++ '\n' :: joinLines ls

/-- The text that follows the current line inside a block: nothing if the
line is the block's last, otherwise a newline followed by the remaining
lines. -/
def tailText : List (List Char) → List Char
  | [] => []
  | l :: ls => '\n' :: joinLines (l :: ls)

/-- The value captured by `\s+(.+?)(?:\n|$)` applied at `t`, the text that
follows a directive keyword (running to the end of the block).  `\s+` is
greedy and may cross newlines, `.` does not match a newline, and the lazy
group must capture at least one character ending at a line end.  So: if `t`
starts with a whitespace character and contains a non-whitespace character,
the capture is the rest of that character's line; if `t` is whitespace-only,
backtracking yields the last non-newline character of `t` provided at least
one whitespace character precedes it; otherwise there is no match. -/
def captureAfter (t : List Char) : Option (List Char) :=
  match t with
  | [] => none
  | c :: _ =>
    if c.isWhitespace then
      match t.findIdx? (fun d => !d.isWhitespace) with
      | some k => some ((t.drop k).takeWhile (fun d => d != '\n'))
      | none =>
        match t.reverse.dropWhile (fun d => d == '\n') with
        | [] => none
        | d :: rest => if rest.isEmpty then none else some [d]
    else none

/-- `re.search(r'(?:^|\n)\s*KEY\s+(.+?)(?:\n|$)', block)`: scan the block's
lines in order; the first line whose content after leading whitespace starts
with the keyword and whose following text admits the `\s+(.+?)` match yields
the captured value. -/
def searchDir (key : List Char) : List (List Char) → Option (List Char)
  | [] => none
  | l :: ls =>
    let s := l.dropWhile Char.isWhitespace
    if key.isPrefixOf s then
      match captureAfter (s.drop key.length ++ tailText ls) with
      | some v => some v
      | none => searchDir key ls
    else searchDir key ls

/-- `re.match(r'Host\s+(.+?)(?:\n|$)', block)`: anchored at the start of the
block text, so the first line must begin (unindented) with `Host`. -/
def hostOf : List (List Char) → Option (List Char)
  | [] => none
  | l :: ls =>
    if hostKey.isPrefixOf l then
      captureAfter (l.drop 4 ++ tailText ls)
    else none

/-- `not block.strip()`: the block text consists of whitespace only. -/
def blockAllWs (bl : List (List Char)) : Bool :=
  bl.all (fun l => l.all Char.isWhitespace)

/-- `block.startswith('Include')`, decided on the block's first line (a
newline can never continue the literal `Include`). -/
def startsInclude : List (List Char) → Bool
  | [] => false
  | l :: _ => includeKey.isPrefixOf l

/-- The lookahead of `re.split(r'\n(?=Host\s+)', content)` at a line: the
line starts a new block iff it begins with `Host` followed by a whitespace
character, where for the bare line `Host` the separating newline itself
supplies the whitespace, so it only counts when a further line exists. -/
def isBoundaryLine (l : List Char) (hasNext : Bool) : Bool :=
  hostKey.isPrefixOf l &&
    (match l.drop 4 with
     | [] => hasNext
     | c :: _ => c.isWhitespace)

/-- Accumulating splitter for `re.split(r'\n(?=Host\s+)', content)` over the
line list of the content. -/
def splitBlocksAux (cur : List (List Char)) : List (List Char) → List (List (List Char))
  | [] => [cur.reverse]
  | l :: rest =>
    if isBoundaryLine l (!rest.isEmpty) then
      cur.reverse :: splitBlocksAux [l] rest
    else
      splitBlocksAux (l :: cur) rest

/-- One parsed host record, mirroring the dict built in `parse_ssh_config`. -/
structure HostEntry where
  host : List Char
  hostname : List Char
  user : List Char
  identity : Option (List Char)
  port : List Char
  raw_config : List Char
deriving DecidableEq, Repr

/-- The entry contributed by one block of the split, or `none` when the
block is skipped (whitespace-only, starting with `Include`, no `Host`
match, or no `HostName` match). -/
def blockEntry (bl : List (List Char)) : Option HostEntry :=
  if blockAllWs bl || startsInclude bl then none
  else
    match hostOf bl with
    | none => none
    | some hv =>
      match searchDir hostNameKey bl with
      | none => none
      | some hn =>
        some { host := pyStrip hv
               hostname := pyStrip hn
               user := ((searchDir userKey bl).map pyStrip).getD ['-']
               identity := (searchDir identityKey bl).map pyStrip
               port := ((searchDir portKey bl).map pyStrip).getD ['2', '2']
               raw_config := joinLines bl }

/-- Lexicographic comparison of character lists by code point, the order
Python uses on the lowered host names. -/
def strLe : List Char → List Char → Bool
  | [], _ => true
  | _ :: _, [] => false
  | a :: as, b :: bs =>
    if a.toNat < b.toNat then true
    else if b.toNat < a.toNat then false
    else strLe as bs

/-- The sort relation of `sorted(servers, key=lambda x: x["host"].lower())`. -/
def EntryLe (a b : HostEntry) : Prop :=
  strLe (pyLower a.host) (pyLower b.host) = true

instance : DecidableRel EntryLe := fun a b =>
  inferInstanceAs (Decidable (_ = true))

/-- The unsorted entry sequence: split the content's lines into blocks and
keep each surviving block's entry, in file order. -/
def parseRawLines : List (List Char) → List HostEntry
  | [] => []
  | l :: rest => (splitBlocksAux [l] rest).filterMap blockEntry

/-- `parse_ssh_config` on the line list of the file text: parse, then sort
stably (Python's `sorted`) by the lowered host name. -/
def parseLines (lines : List (List Char)) : List HostEntry :=
  (parseRawLines lines).insertionSort EntryLe

/-- `line.strip().startswith(f"Host {selected['host']}")`, the editor's
start-of-span test. -/
def startMatches (target : List Char) (l : List Char) : Bool :=
  (hostSpace ++ target).isPrefixOf (pyStrip l)

/-- Index of the first line matching the edit target, or `none`
(`start_index == -1`). -/
def findStartIdx (target : List Char) (lines : List (List Char)) : Option Nat :=
  lines.findIdx? (startMatches target)

/-- The editor's end-of-span test at index `j`:
`j == len(config_lines) - 1 or config_lines[j].startswith("Host ")`. -/
def isEndBoundary (lines : List (List Char)) (j : Nat) : Bool :=
  j == lines.length - 1 || hostSpace.isPrefixOf (lines.getD j [])

/-- The editor's inner loop: the first `j` in `range(i+1, len(lines))`
passing the end test, or `none` (`end_index == -1`). -/
def findEndIdx (lines : List (List Char)) (i : Nat) : Option Nat :=
  (List.range' (i + 1) (lines.length - (i + 1))).find? (isEndBoundary lines)

/-- The file-rewriting core of `edit_server`: locate the span and splice
`config_lines[start_index:end_index] = new_config`; if either index is
missing the file is left untouched. -/
def editConfig (lines : List (List Char)) (target : List Char)
    (newCfg : List (List Char)) : List (List Char) :=
  match findStartIdx target lines with
  | none => lines
  | some i =>
    match findEndIdx lines i with
    | none => lines
    | some e => lines.take i ++ newCfg ++ lines.drop e

/-- The replacement block synthesized by `edit_server` (lines keep their
trailing newline, as written by the source): name/hostname/user always, the
port only when it differs from `"22"`, the identity file only when password
authentication was not chosen. -/
def newConfigLines (name hostname user port : List Char)
    (identity : Option (List Char)) : List (List Char) :=
  [hostSpace ++ name ++ ['\n'],
   spaces4 ++ hostNameKey ++ ' ' :: hostname ++ ['\n'],
   spaces4 ++ userKey ++ ' ' :: user ++ ['\n']]
  ++ (if port = ['2', '2'] then [] else [spaces4 ++ portKey ++ ' ' :: port ++ ['\n']])
  ++ (match identity with
      | some k => [spaces4 ++ identityKey ++ ' ' :: k ++ ['\n']]
      | none => [])

/-- The newline-free block lines that `add_server` appends (the final empty
line records the trailing newline of the written text). -/
def newBlockLines (name hostname user port : List Char)
    (identity : Option (List Char)) : List (List Char) :=
  [hostSpace ++ name,
   spaces4 ++ hostNameKey ++ ' ' :: hostname,
   spaces4 ++ userKey ++ ' ' :: user]
  ++ (if port = ['2', '2'] then [] else [spaces4 ++ portKey ++ ' ' :: port])
  ++ (match identity with
      | some k => [spaces4 ++ identityKey ++ ' ' :: k]
      | none => [])
  ++ [[]]

/-- `add_server`'s file update on the line-list view: the leading written
newline closes the file's last line, so the new block's lines follow the old
lines unchanged. -/
def appendHostLines (lines : List (List Char)) (name hostname user port : List Char)
    (identity : Option (List Char)) : List (List Char) :=
  lines ++ newBlockLines name hostname user port identity

/-- `"SSH Key" if server.get("identity") else "Password"` from
`list_servers`, including Python's truthiness on the empty string. -/
def authMethod (e : HostEntry) : List Char :=
  match e.identity with
  | none => "Password".data
  | some s => if s.isEmpty then "Password".data else "SSH Key".data

/-- Outcome of a numeric selection step as seen at the top level. -/
inductive FlowOutcome where
  | ok
  | handledError
  | unhandledError
deriving DecidableEq, Repr

/-- Python list indexing `l[i]` (negative indices count from the end; out of
range raises `IndexError`, modelled as `none`). -/
def pyGet {α : Type _} (l : List α) (i : Int) : Option α :=
  if 0 ≤ i then l.get? i.toNat
  else if 0 ≤ (l.length : Int) + i then l.get? ((l.length : Int) + i).toNat
  else none

/-- `servers[int(choice) - 1]` from `edit_server`/`connect_server`. -/
def selectServer {α : Type _} (servers : List α) (choice : Int) : Option α :=
  pyGet servers (choice - 1)

/-- The selection step of `edit_server`: its `except Exception` handler
catches an `IndexError` and reports it, so the program continues normally. -/
def editSelectOutcome {α : Type _} (servers : List α) (choice : Int) : FlowOutcome :=
  match selectServer servers choice with
  | some _ => .ok
  | none => .handledError

/-- The selection step of `connect_server`: only `KeyboardInterrupt` and
`EOFError` are caught there, so an `IndexError` escapes to `main`'s handler,
which reports it and exits with status 1. -/
def connectSelectOutcome {α : Type _} (servers : List α) (choice : Int) : FlowOutcome :=
  match selectServer servers choice with
  | some _ => .ok
  | none => .unhandledError

/-- A valid interactive token (server name, hostname, user): accepted by
`validate_name` and stripped by `get_valid_input`, hence non-empty and
whitespace-free. -/
def Token (v : List Char) : Prop :=
  v ≠ [] ∧ ∀ c ∈ v, c.isWhitespace = false

/-- A non-empty stripped single-line value (port string, identity path):
what `Prompt.ask(...).strip()` can return when not empty. -/
def Val (v : List Char) : Prop :=
  v ≠ [] ∧ pyStrip v = v ∧ '\n' ∉ v

instance (v : List Char) : Decidable (Token v) := by
  unfold Token
  infer_instance

instance (v : List Char) : Decidable (Val v) := by
  unfold Val
  infer_instance

/-- Sample file for exercising the editor's span computation (`readlines`
view: lines keep their trailing newline). -/
def witLinesA : List (List Char) :=
  ["Host a\n".data, "    HostName x\n".data, "    User u\n".data]

/-- Replacement block used with `witLinesA`. -/
def witNewA : List (List Char) := ["Host b\n".data, "    HostName y\n".data]

/-- Sample parser block with only `Host` and `HostName` directives. -/
def witBlockB : List (List Char) := ["Host plain".data, "    HostName 10.0.0.5".data]

/-- The entry `witBlockB` parses to. -/
def witEntryB : HostEntry :=
  { host := "plain".data
    hostname := "10.0.0.5".data
    user := ['-']
    identity := none
    port := ['2', '2']
    raw_config := joinLines witBlockB }

/-! ### Generic scanning helpers -/

theorem findIdx?_some_facts {α : Type _} (p : α → Bool) (d : α) :
    ∀ (l : List α) (i : Nat), l.findIdx? p = some i →
      i < l.length ∧ p (l.getD i d) = true ∧ ∀ j, j < i → p (l.getD j d) = false := by
  intro l
  induction l with
  | nil => intro i h; simp [List.findIdx?] at h
  | cons a l ih =>
    intro i h
    rw [List.findIdx?_cons] at h
    by_cases hpa : p a
    · simp [hpa] at h
      subst h
      exact ⟨Nat.succ_pos _, by simpa using hpa, fun j hj => absurd hj (Nat.not_lt_zero j)⟩
    · simp [hpa, List.findIdx?_succ] at h
      obtain ⟨i', hi', rfl⟩ := h
      obtain ⟨h1, h2, h3⟩ := ih i' hi'
      refine ⟨by simpa using Nat.succ_lt_succ h1, by simpa using h2, fun j hj => ?_⟩
      cases j with
      | zero => simpa using hpa
      | succ j' => simpa using h3 j' (Nat.lt_of_succ_lt_succ hj)

theorem findIdx?_none_facts {α : Type _} (p : α → Bool) :
    ∀ (l : List α), l.findIdx? p = none → ∀ x ∈ l, p x = false := by
  intro l h x hx
  exact List.findIdx?_eq_none_iff.mp h x hx

theorem findIdx?_first {α : Type _} (p : α → Bool) :
    ∀ (A : List α) (b : α) (r : List α), (∀ x ∈ A, p x = false) → p b = true →
      (A ++ b :: r).findIdx? p = some A.length := by
  intro A
  induction A with
  | nil => intro b r _ hb; simp [List.findIdx?_cons, hb]
  | cons a A ih =>
    intro b r hA hb
    have hpa : p a = false := hA a (List.mem_cons_self a A)
    simp [List.findIdx?_cons, hpa, List.findIdx?_succ, ih b r (fun x hx => hA x (List.mem_cons_of_mem a hx)) hb]

theorem find?_range'_some (p : Nat → Bool) :
    ∀ (n a x : Nat), (List.range' a n).find? p = some x →
      a ≤ x ∧ x < a + n ∧ p x = true ∧ ∀ j, a ≤ j → j < x → p j = false := by
  intro n
  induction n with
  | zero => intro a x h; simp at h
  | succ n ih =>
    intro a x h
    rw [List.range'_succ] at h
    by_cases hpa : p a
    · rw [List.find?_cons_of_pos _ hpa] at h
      obtain rfl : a = x := by simpa using h
      exact ⟨le_rfl, by omega, hpa, fun j h1 h2 => by omega⟩
    · rw [List.find?_cons_of_neg _ hpa] at h
      obtain ⟨h1, h2, h3, h4⟩ := ih (a + 1) x h
      refine ⟨by omega, by omega, h3, fun j hj1 hj2 => ?_⟩
      rcases Nat.eq_or_lt_of_le hj1 with rfl | hj1'
      · simpa using hpa
      · exact h4 j hj1' hj2

theorem find?_range'_none (p : Nat → Bool) :
    ∀ (n a : Nat), (List.range' a n).find? p = none → ∀ j, a ≤ j → j < a + n → p j = false := by
  intro n
  induction n with
  | zero => intro a _ j h1 h2; omega
  | succ n ih =>
    intro a h j h1 h2
    rw [List.range'_succ] at h
    by_cases hpa : p a
    · rw [List.find?_cons_of_pos _ hpa] at h; cases h
    · rw [List.find?_cons_of_neg _ hpa] at h
      rcases Nat.eq_or_lt_of_le h1 with rfl | h1'
      · simpa using hpa
      · exact ih (a + 1) h j h1' (by omega)

/-! ### String helpers -/

theorem dropWhile_eq_self_of_head {α : Type _} (p : α → Bool) (l : List α)
    (h : ∀ x ∈ l, p x = false) : l.dropWhile p = l := by
  cases l with
  | nil => rfl
  | cons a l => simp [List.dropWhile, h a (List.mem_cons_self a l)]

theorem pyStrip_of_nonws (v : List Char) (h : ∀ c ∈ v, c.isWhitespace = false) :
    pyStrip v = v := by
  unfold pyStrip
  rw [dropWhile_eq_self_of_head _ _ h,
    dropWhile_eq_self_of_head _ _ (fun c hc => h c (List.mem_reverse.mp hc)),
    List.reverse_reverse]

theorem pyStrip_length_le (l : List Char) : (pyStrip l).length ≤ l.length := by
  unfold pyStrip
  calc ((l.dropWhile Char.isWhitespace).reverse.dropWhile Char.isWhitespace).reverse.length
      = ((l.dropWhile Char.isWhitespace).reverse.dropWhile Char.isWhitespace).length := by
        rw [List.length_reverse]
    _ ≤ (l.dropWhile Char.isWhitespace).reverse.length :=
        (List.dropWhile_sublist _).length_le
    _ = (l.dropWhile Char.isWhitespace).length := by rw [List.length_reverse]
    _ ≤ l.length := (List.dropWhile_sublist _).length_le

theorem head_nonws_of_pyStrip_self (c : Char) (v : List Char)
    (h : pyStrip (c :: v) = c :: v) : c.isWhitespace = false := by
  by_contra hc
  rw [Bool.not_eq_false] at hc
  have h1 : pyStrip (c :: v) = pyStrip v := by
    unfold pyStrip
    rw [List.dropWhile_cons, if_pos hc]
  have h2 : (pyStrip (c :: v)).length ≤ v.length := h1 ▸ pyStrip_length_le v
  rw [h] at h2
  simp at h2

theorem takeWhile_nl (v rest : List Char) (hnl : '\n' ∉ v)
    (hrest : rest = [] ∨ ∃ r, rest = '\n' :: r) :
    (v ++ rest).takeWhile (fun d => d != '\n') = v := by
  induction v with
  | nil =>
    rcases hrest with rfl | ⟨r, rfl⟩
    · rfl
    · simp [List.takeWhile]
  | cons c v ih =>
    have hc : c ≠ '\n' := fun h => hnl (h ▸ List.mem_cons_self c v)
    simp only [List.cons_append, List.takeWhile_cons]
    rw [if_pos (by simpa using hc)]
    rw [ih (fun h => hnl (List.mem_cons_of_mem c h))]

theorem captureAfter_value (c : Char) (v rest : List Char)
    (hc : c.isWhitespace = false) (hnl : '\n' ∉ c :: v)
    (hrest : rest = [] ∨ ∃ r, rest = '\n' :: r) :
    captureAfter (' ' :: (c :: v) ++ rest) = some (c :: v) := by
  have hws : (' ' : Char).isWhitespace = true := by decide
  have hidx : (' ' :: (c :: v) ++ rest).findIdx? (fun d => !d.isWhitespace) = some 1 := by
    rw [List.cons_append, List.findIdx?_cons]
    simp [hws, List.findIdx?_cons, hc]
  unfold captureAfter
  simp only [hidx, hws, if_pos]
  rw [List.cons_append, List.drop_one, List.tail_cons]
  rw [takeWhile_nl _ _ hnl hrest]
  simp [hws]

theorem isPrefixOf_append_self (key t : List Char) : key.isPrefixOf (key ++ t) = true := by
  induction key with
  | nil => simp
  | cons a as ih => simp [List.isPrefixOf_cons₂, ih]

/-! ### Directive-search and block-split lemmas -/

theorem searchDir_nil (key : List Char) : searchDir key [] = none := rfl

theorem searchDir_skip (key l : List Char) (ls : List (List Char))
    (h : key.isPrefixOf (l.dropWhile Char.isWhitespace) = false) :
    searchDir key (l :: ls) = searchDir key ls := by
  simp [searchDir, h]

theorem searchDir_hit (key l : List Char) (ls : List (List Char)) (s' v : List Char)
    (hs : l.dropWhile Char.isWhitespace = key ++ s')
    (h2 : captureAfter (s' ++ tailText ls) = some v) :
    searchDir key (l :: ls) = some v := by
  simp only [searchDir, hs, isPrefixOf_append_self, if_pos, List.drop_left, h2]

theorem splitBlocksAux_no_boundary :
    ∀ (ls cur : List (List Char)),
      (∀ l ∈ ls, ∀ hn, isBoundaryLine l hn = false) →
      splitBlocksAux cur ls = [cur.reverse ++ ls] := by
  intro ls
  induction ls with
  | nil => intro cur _; simp [splitBlocksAux]
  | cons l rest ih =>
    intro cur h
    rw [splitBlocksAux, if_neg (by simp [h l (List.mem_cons_self l rest)])]
    rw [ih (l :: cur) (fun x hx hn => h x (List.mem_cons_of_mem l hx) hn)]
    simp

theorem splitBlocksAux_mem_append (b0 : List Char) (bt : List (List Char))
    (hb0 : ∀ hn, isBoundaryLine b0 hn = true)
    (hbt : ∀ l ∈ bt, ∀ hn, isBoundaryLine l hn = false) :
    ∀ (rest cur : List (List Char)), (b0 :: bt) ∈ splitBlocksAux cur (rest ++ b0 :: bt) := by
  intro rest
  induction rest with
  | nil =>
    intro cur
    rw [List.nil_append, splitBlocksAux, if_pos (hb0 _)]
    rw [splitBlocksAux_no_boundary bt [b0] hbt]
    simp
  | cons r rs ih =>
    intro cur
    rw [List.cons_append, splitBlocksAux]
    by_cases hr : isBoundaryLine r (!(rs ++ b0 :: bt).isEmpty)
    · rw [if_pos hr]
      exact List.mem_cons_of_mem _ (ih [r])
    · rw [if_neg hr]
      exact ih (r :: cur)

/-! ### Order lemmas for the sort -/

theorem strLe_refl (a : List Char) : strLe a a = true := by
  induction a with
  | nil => rfl
  | cons c cs ih => simp [strLe, ih]

theorem strLe_total (a b : List Char) : strLe a b = true ∨ strLe b a = true := by
  induction a generalizing b with
  | nil => left; rfl
  | cons x xs ih =>
    cases b with
    | nil => right; rfl
    | cons y ys =>
      rcases Nat.lt_trichotomy x.toNat y.toNat with h | h | h
      · left; simp [strLe, h]
      · rcases ih ys with h' | h'
        · left; simp [strLe, h, h']
        · right; simp [strLe, h.symm, h']
      · right; simp [strLe, h]

theorem strLe_trans (a b c : List Char) (h1 : strLe a b = true) (h2 : strLe b c = true) :
    strLe a c = true := by
  induction a generalizing b c with
  | nil => rfl
  | cons x xs ih =>
    cases b with
    | nil => simp [strLe] at h1
    | cons y ys =>
      cases c with
      | nil => simp [strLe] at h2
      | cons z zs =>
        simp only [strLe] at h1 h2 ⊢
        by_cases hxy : x.toNat < y.toNat
        · by_cases hyz : y.toNat < z.toNat
          · rw [if_pos (by omega)]
          · rw [if_neg hyz] at h2
            by_cases hzy : z.toNat < y.toNat
            · rw [if_pos hzy] at h2; cases h2
            · rw [if_pos (by omega)]
        · rw [if_neg hxy] at h1
          by_cases hyx : y.toNat < x.toNat
          · rw [if_pos hyx] at h1; cases h1
          · rw [if_neg hyx] at h1
            by_cases hyz : y.toNat < z.toNat
            · rw [if_pos (by omega)]
            · rw [if_neg hyz] at h2
              by_cases hzy : z.toNat < y.toNat
              · rw [if_pos hzy] at h2; cases h2
              · rw [if_neg hzy] at h2
                rw [if_neg (by omega), if_neg (by omega)]
                exact ih ys zs h1 h2

instance : IsTotal HostEntry EntryLe :=
  ⟨fun a b => strLe_total (pyLower a.host) (pyLower b.host)⟩

instance : IsTrans HostEntry EntryLe :=
  ⟨fun _ _ _ h1 h2 => strLe_trans _ _ _ h1 h2⟩

theorem entryLe_of_eq_keys (a b : HostEntry) (h : pyLower a.host = pyLower b.host) :
    EntryLe a b := by
  unfold EntryLe
  rw [h]
  exact strLe_refl _

/-! ### Stability of the sort -/

theorem filter_orderedInsert (k : List Char) (x : HostEntry) (l : List HostEntry) :
    (l.orderedInsert EntryLe x).filter (fun e => pyLower e.host == k)
      = if pyLower x.host == k then x :: l.filter (fun e => pyLower e.host == k)
        else l.filter (fun e => pyLower e.host == k) := by
  induction l with
  | nil =>
    by_cases hx : pyLower x.host == k
    · simp [List.orderedInsert, List.filter, hx]
    · simp [List.orderedInsert, List.filter, hx]
  | cons b l ih =>
    rw [List.orderedInsert]
    by_cases hle : EntryLe x b
    · rw [if_pos hle]
      by_cases hx : pyLower x.host == k
      · simp [List.filter, hx]
      · simp [List.filter, hx]
    · rw [if_neg hle]
      by_cases hb : pyLower b.host == k
      · have hx : (pyLower x.host == k) = false := by
          by_contra hx'
          rw [Bool.not_eq_false, beq_iff_eq] at hx'
          rw [beq_iff_eq] at hb
          exact hle (entryLe_of_eq_keys x b (by rw [hx', hb]))
        simp [List.filter, hb, hx, ih]
      · simp [List.filter, hb, ih]

theorem filter_insertionSort (k : List Char) (l : List HostEntry) :
    (l.insertionSort EntryLe).filter (fun e => pyLower e.host == k)
      = l.filter (fun e => pyLower e.host == k) := by
  induction l with
  | nil => rfl
  | cons x l ih =>
    rw [List.insertionSort, filter_orderedInsert, ih]
    by_cases hx : pyLower x.host == k
    · simp [List.filter, hx]
    · simp [List.filter, hx]

/-! ### getD helpers -/

theorem getD_append_right_size {α : Type _} (d : α) :
    ∀ (l1 l2 : List α) (n : Nat), (l1 ++ l2).getD (l1.length + n) d = l2.getD n d := by
  intro l1
  induction l1 with
  | nil => intro l2 n; simp
  | cons a l1 ih =>
    intro l2 n
    rw [List.cons_append, List.length_cons,
      show l1.length + 1 + n = (l1.length + n) + 1 from by omega,
      List.getD_cons_succ]
    exact ih l2 n

theorem getD_append_left_size {α : Type _} (d : α) :
    ∀ (l1 l2 : List α) (n : Nat), n < l1.length → (l1 ++ l2).getD n d = l1.getD n d := by
  intro l1
  induction l1 with
  | nil => intro l2 n h; simp at h
  | cons a l1 ih =>
    intro l2 n h
    cases n with
    | zero => simp
    | succ n' =>
      rw [List.cons_append, List.getD_cons_succ, List.getD_cons_succ]
      exact ih l2 n' (by simpa using h)

theorem getD_mem_of_lt {α : Type _} (d : α) :
    ∀ (l : List α) (n : Nat), n < l.length → l.getD n d ∈ l := by
  intro l
  induction l with
  | nil => intro n h; simp at h
  | cons a l ih =>
    intro n h
    cases n with
    | zero => simp
    | succ n' => simpa using Or.inr (ih n' (by simpa using h))

/-! ### Claim theorems -/

/-- C4: every sequence returned by the parser is sorted by the `host` field
case-insensitively, and entries whose lowered host names are equal keep the
relative order they had in the file (stable sort). -/
theorem c4_parse_sorted_stable (lines : List (List Char)) :
    (parseLines lines).Sorted EntryLe ∧
    ∀ k : List Char,
      (parseLines lines).filter (fun e => pyLower e.host == k)
        = (parseRawLines lines).filter (fun e => pyLower e.host == k) := by
  constructor
  · exact List.sorted_insertionSort EntryLe (parseRawLines lines)
  · intro k
    exact filter_insertionSort k (parseRawLines lines)

/-- C5: a block whose `HostName` search fails contributes no entry, and a
block whose text starts with `Include` contributes no entry, whatever else
it contains; in both cases the parser just skips it. -/
theorem c5_skip_rules (bl : List (List Char)) :
    (searchDir hostNameKey bl = none → blockEntry bl = none) ∧
    (∀ l0 ls, bl = l0 :: ls → includeKey.isPrefixOf l0 = true → blockEntry bl = none) := by
  constructor
  · intro h
    by_cases hws : (blockAllWs bl || startsInclude bl) = true
    · simp [blockEntry, hws]
    · cases hho : hostOf bl with
      | none => simp [blockEntry, hws, hho]
      | some hv => simp [blockEntry, hws, hho, h]
  · intro l0 ls hbl hinc
    subst hbl
    simp [blockEntry, startsInclude, hinc]

/-- Witness for C5 at concrete blocks. -/
theorem c5_skip_rules_witness :
    searchDir hostNameKey ["Host nohost".data, "    User u".data] = none ∧
    blockEntry ["Host nohost".data, "    User u".data] = none ∧
    blockEntry ["Include conf".data, "    HostName x".data] = none :=
  ⟨by decide, (c5_skip_rules _).1 (by decide),
    (c5_skip_rules _).2 "Include conf".data ["    HostName x".data] rfl (by decide)⟩

/-- C6: a parsed block lacking a `Port` directive yields port `"22"`, one
lacking `User` yields the sentinel `"-"`, and one lacking `IdentityFile`
yields an absent identity, displayed as password authentication. -/
theorem c6_defaults (bl : List (List Char)) (e : HostEntry)
    (he : blockEntry bl = some e) :
    (searchDir portKey bl = none → e.port = ['2', '2']) ∧
    (searchDir userKey bl = none → e.user = ['-']) ∧
    (searchDir identityKey bl = none →
      e.identity = none ∧ authMethod e = "Password".data) := by
  unfold blockEntry at he
  by_cases hws : (blockAllWs bl || startsInclude bl) = true
  · rw [if_pos hws] at he; cases he
  · rw [if_neg hws] at he
    cases hho : hostOf bl with
    | none => rw [hho] at he; cases he
    | some hv =>
      rw [hho] at he
      cases hhn : searchDir hostNameKey bl with
      | none => rw [hhn] at he; cases he
      | some hn =>
        rw [hhn] at he
        injection he with he2
        subst he2
        refine ⟨fun hp => by simp [hp], fun hu => by simp [hu], fun hi => ⟨by simp [hi], ?_⟩⟩
        simp [authMethod, hi]

/-- Witness for C6 at a concrete block with only `Host` and `HostName`. -/
theorem c6_defaults_witness :
    blockEntry witBlockB = some witEntryB ∧
    witEntryB.port = ['2', '2'] ∧ witEntryB.user = ['-'] ∧
    witEntryB.identity = none ∧ authMethod witEntryB = "Password".data := by
  have h := c6_defaults witBlockB witEntryB (by decide)
  exact ⟨by decide, h.1 (by decide), h.2.1 (by decide),
    (h.2.2 (by decide)).1, (h.2.2 (by decide)).2⟩

/-- C7: when no line of the file strip-starts with `Host <target>`, the
replace operation returns the file unchanged and reports nothing. -/
theorem c7_missing_target_noop (lines : List (List Char)) (target : List Char)
    (newCfg : List (List Char))
    (h : ∀ l ∈ lines, startMatches target l = false) :
    editConfig lines target newCfg = lines := by
  have hidx : findStartIdx target lines = none := List.findIdx?_eq_none_iff.mpr h
  simp [editConfig, hidx]

/-- Witness for C7: editing a host that is not in the file. -/
theorem c7_missing_target_noop_witness :
    (∀ l ∈ ["Host alpha\n".data, "    HostName 10.0.0.1\n".data],
      startMatches "beta".data l = false) ∧
    editConfig ["Host alpha\n".data, "    HostName 10.0.0.1\n".data] "beta".data
        ["Host beta\n".data]
      = ["Host alpha\n".data, "    HostName 10.0.0.1\n".data] :=
  ⟨by decide, c7_missing_target_noop _ _ _ (by decide)⟩

/-- C10: with `Host web-prod` appearing before `Host web`, editing `web`
replaces the `web-prod` block (located by literal prefix match) and leaves
the selected host's own block untouched. -/
theorem c10_prefix_match_shadowing :
    editConfig
        ["Host web-prod\n".data, "    HostName 10.0.0.1\n".data,
         "Host web\n".data, "    HostName 10.0.0.2\n".data]
        "web".data
        (newConfigLines "web".data "10.0.0.9".data "root".data "22".data none)
      = newConfigLines "web".data "10.0.0.9".data "root".data "22".data none
        ++ ["Host web\n".data, "    HostName 10.0.0.2\n".data] := by decide

/-- C8 counterexample: an indented `Host` line is NOT a block boundary, in
either the parser's split (the file below parses to one entry, not two) or
the editor's end-of-span scan (the indented line is replaced along with the
rest of the span). -/
theorem c8_counterexample :
    (parseRawLines
        ["Host a".data, "    HostName x".data, "  Host b".data,
         "    HostName y".data]).length = 1 ∧
    editConfig ["Host a\n".data, "  Host b\n".data, "Host c\n".data] "a".data
        ["Host z\n".data]
      = ["Host z\n".data, "Host c\n".data] ∧
    editConfig ["Host a\n".data, "  Host b\n".data, "Host c\n".data] "a".data
        ["Host z\n".data]
      ≠ ["Host z\n".data, "  Host b\n".data, "Host c\n".data] := by decide

/-- C8 (amended): only a line starting at column 0 with `Host` plus
whitespace is a boundary: for the parser's split an indented line never
opens a new block, and for the editor's end scan an indented line (other
than the final-line case) never ends the span.  Indentation-tolerant
matching is used only for the editor's start-of-span search. -/
theorem c8_boundary_column_zero :
    (∀ (cur : List (List Char)) (c : Char) (rest : List Char) (ls : List (List Char)),
      c.isWhitespace = true →
      splitBlocksAux cur ((c :: rest) :: ls) = splitBlocksAux ((c :: rest) :: cur) ls) ∧
    (∀ (lines : List (List Char)) (j : Nat) (c : Char) (rest : List Char),
      lines.getD j [] = c :: rest → c.isWhitespace = true →
      j ≠ lines.length - 1 → isEndBoundary lines j = false) := by
  have hH : ('H' : Char).isWhitespace = false := by decide
  constructor
  · intro cur c rest ls hc
    have hb : isBoundaryLine (c :: rest) (!ls.isEmpty) = false := by
      have hne : ('H' == c) = false := by
        rw [beq_eq_false_iff_ne]
        intro h
        rw [← h] at hc
        rw [hH] at hc
        cases hc
      simp [isBoundaryLine, hostKey, List.isPrefixOf_cons₂, hne]
    rw [splitBlocksAux, if_neg (by simp [hb])]
  · intro lines j c rest hline hc hj
    have hne : ('H' == c) = false := by
      rw [beq_eq_false_iff_ne]
      intro h
      rw [← h] at hc
      rw [hH] at hc
      cases hc
    have hjb : (j == lines.length - 1) = false := by
      rw [beq_eq_false_iff_ne]
      exact hj
    unfold isEndBoundary
    rw [hline, hjb]
    simp [hostSpace, List.isPrefixOf_cons₂, hne]

/-- Witness for C8 (amended) at concrete data. -/
theorem c8_boundary_column_zero_witness :
    splitBlocksAux ["Host a".data] ["  Host b".data]
      = splitBlocksAux ["  Host b".data, "Host a".data] [] ∧
    isEndBoundary ["Host a\n".data, "  Host b\n".data, "Host c\n".data] 1 = false := by
  constructor
  · exact c8_boundary_column_zero.1 ["Host a".data] ' ' " Host b".data [] (by decide)
  · exact c8_boundary_column_zero.2 _ 1 ' ' " Host b\n".data (by decide) (by decide) (by decide)

/-- C9 counterexample: the numeric selection `0` is outside the displayed
bounds `1..len`, yet Python's negative indexing selects the last server
without any error; and in the edit flow an out-of-range index error is
caught by `edit_server`'s own `except Exception` handler rather than
propagating to the top level. -/
theorem c9_counterexample :
    selectServer [(7 : Nat)] 0 = some 7 ∧
    editSelectOutcome [(7 : Nat)] 5 = FlowOutcome.handledError ∧
    editSelectOutcome [(7 : Nat)] 5 ≠ FlowOutcome.unhandledError := by decide

/-- C9 (amended): for a non-empty server list, a selection above the length
(or at or below `-len`) fails the index lookup; in the connect flow the
error escapes to the top level, in the edit flow it is caught locally; a
selection in `(-len, 0]` wraps around and selects an element without
error. -/
theorem c9_selection_bounds {α : Type _} (servers : List α) (choice : Int)
    (hne : servers ≠ []) :
    (((servers.length : Int) < choice ∨ choice ≤ -(servers.length : Int)) →
      selectServer servers choice = none ∧
      editSelectOutcome servers choice = FlowOutcome.handledError ∧
      connectSelectOutcome servers choice = FlowOutcome.unhandledError) ∧
    ((-(servers.length : Int) < choice ∧ choice ≤ 0) →
      ∃ x, selectServer servers choice = some x) := by
  have hlen : 0 < servers.length := List.length_pos.mpr hne
  constructor
  · intro h
    have hsel : selectServer servers choice = none := by
      unfold selectServer pyGet
      rcases h with h | h
      · rw [if_pos (by omega)]
        exact List.get?_eq_none.mpr (by omega)
      · rw [if_neg (by omega), if_neg (by omega)]
    exact ⟨hsel, by simp [editSelectOutcome, hsel], by simp [connectSelectOutcome, hsel]⟩
  · rintro ⟨h1, h2⟩
    unfold selectServer pyGet
    rw [if_neg (by omega), if_pos (by omega)]
    have hlt : ((servers.length : Int) + (choice - 1)).toNat < servers.length := by omega
    exact ⟨_, List.get?_eq_get hlt⟩

/-- Witness for C9 (amended). -/
theorem c9_selection_bounds_witness :
    selectServer [(7 : Nat), 8] 5 = none ∧
    editSelectOutcome [(7 : Nat), 8] 5 = FlowOutcome.handledError ∧
    connectSelectOutcome [(7 : Nat), 8] 5 = FlowOutcome.unhandledError ∧
    ∃ x, selectServer [(7 : Nat), 8] 0 = some x := by
  have h1 := (c9_selection_bounds [(7 : Nat), 8] 5 (by decide)).1 (by decide)
  have h2 := (c9_selection_bounds [(7 : Nat), 8] 0 (by decide)).2 (by decide)
  exact ⟨h1.1, h1.2.1, h1.2.2, h2⟩

/-- C1 counterexample: in a file whose matched block runs to end of file,
the slice `config_lines[start:end]` with `end == len-1` excludes the final
line, so the final line of the file survives the replacement, contradicting
the claimed "through the final line of the file inclusive". -/
theorem c1_counterexample :
    editConfig witLinesA "a".data witNewA
      = ["Host b\n".data, "    HostName y\n".data, "    User u\n".data] ∧
    editConfig witLinesA "a".data witNewA ≠ witNewA := by decide

/-- C1 (amended): the replaced span runs from the first line whose trimmed
content starts with `Host <target>` up to but excluding the first following
boundary, where a boundary is either a line starting with `Host ` or the
final line of the file; so with no following `Host ` line the span stops
just before the final line (which is preserved), and when the match is on
the final line itself nothing is replaced at all. -/
theorem c1_replace_span (lines : List (List Char)) (target : List Char)
    (newCfg : List (List Char)) (i : Nat)
    (hstart : findStartIdx target lines = some i) :
    (i + 1 = lines.length → editConfig lines target newCfg = lines) ∧
    (i + 1 < lines.length →
      ∃ e, i < e ∧ e ≤ lines.length - 1 ∧ isEndBoundary lines e = true ∧
        (∀ j, i < j → j < e → isEndBoundary lines j = false) ∧
        editConfig lines target newCfg
          = lines.take i ++ newCfg ++ lines.drop e) := by
  constructor
  · intro hlen
    have hend : findEndIdx lines i = none := by
      unfold findEndIdx
      rw [show lines.length - (i + 1) = 0 from by omega, List.range'_zero]
      rfl
    simp [editConfig, hstart, hend]
  · intro hlt
    have hlast : isEndBoundary lines (lines.length - 1) = true := by
      simp [isEndBoundary]
    cases hend : findEndIdx lines i with
    | none =>
      exfalso
      unfold findEndIdx at hend
      have := find?_range'_none (isEndBoundary lines) (lines.length - (i + 1)) (i + 1)
        hend (lines.length - 1) (by omega) (by omega)
      rw [hlast] at this
      cases this
    | some e =>
      have hend' := hend
      unfold findEndIdx at hend'
      obtain ⟨h1, h2, h3, h4⟩ :=
        find?_range'_some (isEndBoundary lines) (lines.length - (i + 1)) (i + 1) e hend'
      refine ⟨e, by omega, by omega, h3, fun j hj1 hj2 => h4 j (by omega) hj2, ?_⟩
      simp [editConfig, hstart, hend]

/-- Witness for C1 (amended) on a concrete file whose block runs to EOF. -/
theorem c1_replace_span_witness :
    findStartIdx "a".data witLinesA = some 0 ∧
    ((0 + 1 = witLinesA.length → editConfig witLinesA "a".data witNewA = witLinesA) ∧
     (0 + 1 < witLinesA.length →
       ∃ e, 0 < e ∧ e ≤ witLinesA.length - 1 ∧ isEndBoundary witLinesA e = true ∧
         (∀ j, 0 < j → j < e → isEndBoundary witLinesA j = false) ∧
         editConfig witLinesA "a".data witNewA
           = witLinesA.take 0 ++ witNewA ++ witLinesA.drop e)) :=
  ⟨by decide, c1_replace_span witLinesA "a".data witNewA 0 (by decide)⟩

/-- C2: with three consecutive blocks and the middle one the edit target,
the replacement rewrites exactly the middle span: every line before it and
every line from the following block's `Host` line onward is preserved
verbatim and in order. -/
theorem c2_replace_locality (A : List (List Char)) (bh : List Char)
    (bt : List (List Char)) (gh : List Char) (G : List (List Char))
    (name : List Char) (newCfg : List (List Char))
    (hA : ∀ l ∈ A, startMatches name l = false)
    (hbh : startMatches name bh = true)
    (hbt : ∀ l ∈ bt, hostSpace.isPrefixOf l = false)
    (hgh : hostSpace.isPrefixOf gh = true) :
    editConfig (A ++ (bh :: bt) ++ (gh :: G)) name newCfg
      = A ++ newCfg ++ (gh :: G) := by
  set lines := A ++ (bh :: bt) ++ (gh :: G) with hlines
  have hshape : lines = A ++ bh :: (bt ++ gh :: G) := by
    simp [hlines]
  have hstart : findStartIdx name lines = some A.length := by
    unfold findStartIdx
    rw [hshape]
    exact findIdx?_first (startMatches name) A bh (bt ++ gh :: G) hA hbh
  have hlen : lines.length = A.length + 1 + bt.length + 1 + G.length := by
    simp [hlines]
    omega
  have htarget : isEndBoundary lines (A.length + 1 + bt.length) = true := by
    have hget : lines.getD (A.length + 1 + bt.length) [] = gh := by
      have : lines = (A ++ bh :: bt) ++ (gh :: G) := by simp [hlines]
      rw [this, show A.length + 1 + bt.length = (A ++ bh :: bt).length + 0 from by
        simp; omega]
      rw [getD_append_right_size]
      rfl
    unfold isEndBoundary
    rw [hget, hgh]
    simp
  have hlow : ∀ j, A.length + 1 ≤ j → j < A.length + 1 + bt.length →
      isEndBoundary lines j = false := by
    intro j hj1 hj2
    have hjb : (j == lines.length - 1) = false := by
      rw [beq_eq_false_iff_ne]
      omega
    have hget : lines.getD j [] = bt.getD (j - (A.length + 1)) [] := by
      have hsplit : lines = (A ++ [bh]) ++ (bt ++ gh :: G) := by simp [hlines]
      have hlen1 : (A ++ [bh]).length = A.length + 1 := by simp
      have ht : j = (A ++ [bh]).length + (j - (A.length + 1)) := by rw [hlen1]; omega
      calc lines.getD j []
          = ((A ++ [bh]) ++ (bt ++ gh :: G)).getD
              ((A ++ [bh]).length + (j - (A.length + 1))) [] := by rw [← ht, ← hsplit]
        _ = (bt ++ gh :: G).getD (j - (A.length + 1)) [] := getD_append_right_size _ _ _ _
        _ = bt.getD (j - (A.length + 1)) [] := getD_append_left_size _ _ _ _ (by omega)
    have hmem : bt.getD (j - (A.length + 1)) [] ∈ bt :=
      getD_mem_of_lt [] bt (j - (A.length + 1)) (by omega)
    unfold isEndBoundary
    rw [hjb, hget, hbt _ hmem]
    rfl
  have hend : findEndIdx lines A.length = some (A.length + 1 + bt.length) := by
    unfold findEndIdx
    cases hfind : (List.range' (A.length + 1) (lines.length - (A.length + 1))).find?
        (isEndBoundary lines) with
    | none =>
      exfalso
      have := find?_range'_none (isEndBoundary lines) (lines.length - (A.length + 1))
        (A.length + 1) hfind (A.length + 1 + bt.length) (by omega) (by omega)
      rw [htarget] at this
      cases this
    | some e =>
      obtain ⟨h1, h2, h3, h4⟩ := find?_range'_some (isEndBoundary lines)
        (lines.length - (A.length + 1)) (A.length + 1) e hfind
      have he : e = A.length + 1 + bt.length := by
        rcases Nat.lt_trichotomy e (A.length + 1 + bt.length) with h | h | h
        · rw [hlow e h1 h] at h3; cases h3
        · exact h
        · have := h4 (A.length + 1 + bt.length) (by omega) h
          rw [htarget] at this
          cases this
      rw [he]
  have htake : lines.take A.length = A := by
    rw [hshape]
    exact List.take_left A _
  have hdrop : lines.drop (A.length + 1 + bt.length) = gh :: G := by
    have : lines = (A ++ bh :: bt) ++ (gh :: G) := by simp [hlines]
    rw [this]
    exact List.drop_left' (by simp; omega)
  simp only [editConfig, hstart, hend]
  rw [htake, hdrop]

/-- Witness for C2 on a concrete three-block file. -/
theorem c2_replace_locality_witness :
    (∀ l ∈ ["Host alpha\n".data, "    HostName 10.0.0.1\n".data],
      startMatches "beta".data l = false) ∧
    startMatches "beta".data "Host beta\n".data = true ∧
    (∀ l ∈ ["    HostName 10.0.0.2\n".data],
      hostSpace.isPrefixOf l = false) ∧
    hostSpace.isPrefixOf "Host gamma\n".data = true ∧
    editConfig
        (["Host alpha\n".data, "    HostName 10.0.0.1\n".data]
          ++ ("Host beta\n".data :: ["    HostName 10.0.0.2\n".data])
          ++ ("Host gamma\n".data :: ["    HostName 10.0.0.3\n".data]))
        "beta".data
        (newConfigLines "beta".data "10.9.9.9".data "admin".data "22".data none)
      = ["Host alpha\n".data, "    HostName 10.0.0.1\n".data]
        ++ (newConfigLines "beta".data "10.9.9.9".data "admin".data "22".data none)
        ++ ("Host gamma\n".data :: ["    HostName 10.0.0.3\n".data]) :=
  ⟨by decide, by decide, by decide, by decide,
    c2_replace_locality _ _ _ _ _ _ _ (by decide) (by decide) (by decide) (by decide)⟩

/-! ### Appended-block lemmas (for the append/parse round trip) -/

theorem token_val (v : List Char) (hv : Token v) : Val v := by
  refine ⟨hv.1, pyStrip_of_nonws v hv.2, fun hmem => ?_⟩
  have h1 := hv.2 _ hmem
  rw [show ('\n' : Char).isWhitespace = true from by decide] at h1
  cases h1

theorem val_decomp (v : List Char) (hv : Val v) :
    ∃ c v', v = c :: v' ∧ c.isWhitespace = false ∧ '\n' ∉ c :: v' := by
  obtain ⟨hne, hstrip, hnl⟩ := hv
  cases v with
  | nil => cases hne rfl
  | cons c v' => exact ⟨c, v', rfl, head_nonws_of_pyStrip_self c v' hstrip, hnl⟩

theorem tailText_shape (ls : List (List Char)) :
    tailText ls = [] ∨ ∃ r, tailText ls = '\n' :: r := by
  cases ls with
  | nil => left; rfl
  | cons l ls => right; exact ⟨_, rfl⟩

theorem captureAfter_val (v : List Char) (hv : Val v) (ls : List (List Char)) :
    captureAfter (' ' :: v ++ tailText ls) = some v := by
  obtain ⟨c, v', rfl, hc, hnl⟩ := val_decomp v hv
  exact captureAfter_value c v' (tailText ls) hc hnl (tailText_shape ls)

theorem searchDir_skip_many (key : List Char) :
    ∀ (pre ls : List (List Char)),
      (∀ l ∈ pre, key.isPrefixOf (l.dropWhile Char.isWhitespace) = false) →
      searchDir key (pre ++ ls) = searchDir key ls := by
  intro pre
  induction pre with
  | nil => intro ls _; rfl
  | cons a pre ih =>
    intro ls h
    rw [List.cons_append, searchDir_skip _ _ _ (h a (List.mem_cons_self a pre)),
      ih ls (fun l hl => h l (List.mem_cons_of_mem a hl))]

theorem hostOf_newBlock (n : List Char) (hv : Val n) (ls : List (List Char)) :
    hostOf ((hostSpace ++ n) :: ls) = some n := by
  simp only [hostOf]
  rw [if_pos (by simp +decide [hostSpace, hostKey, List.isPrefixOf_cons₂])]
  rw [show (hostSpace ++ n).drop 4 = ' ' :: n from by simp [hostSpace]]
  exact captureAfter_val n hv ls

theorem searchNb_hostname (n h : List Char) (hh : Val h) (ls2 : List (List Char)) :
    searchDir hostNameKey
        ((hostSpace ++ n) :: (spaces4 ++ hostNameKey ++ ' ' :: h) :: ls2)
      = some h := by
  rw [searchDir_skip _ _ _
    (by simp +decide [hostSpace, hostNameKey, List.isPrefixOf_cons₂, List.dropWhile_cons])]
  exact searchDir_hit _ _ _ (' ' :: h) h
    (by simp +decide [spaces4, hostNameKey, List.dropWhile_cons])
    (captureAfter_val h hh ls2)

theorem searchNb_user (n h u : List Char) (hu : Val u) (ls3 : List (List Char)) :
    searchDir userKey
        ((hostSpace ++ n) :: (spaces4 ++ hostNameKey ++ ' ' :: h)
          :: (spaces4 ++ userKey ++ ' ' :: u) :: ls3)
      = some u := by
  rw [searchDir_skip _ _ _
    (by simp +decide [hostSpace, userKey, List.isPrefixOf_cons₂, List.dropWhile_cons])]
  rw [searchDir_skip _ _ _
    (by simp +decide [spaces4, hostNameKey, userKey, List.isPrefixOf_cons₂, List.dropWhile_cons])]
  exact searchDir_hit _ _ _ (' ' :: u) u
    (by simp +decide [spaces4, userKey, List.dropWhile_cons])
    (captureAfter_val u hu ls3)

theorem searchNb_port (n h u p : List Char) (hp : Val p) (ls4 : List (List Char)) :
    searchDir portKey
        ((hostSpace ++ n) :: (spaces4 ++ hostNameKey ++ ' ' :: h)
          :: (spaces4 ++ userKey ++ ' ' :: u)
          :: (spaces4 ++ portKey ++ ' ' :: p) :: ls4)
      = some p := by
  rw [searchDir_skip _ _ _
    (by simp +decide [hostSpace, portKey, List.isPrefixOf_cons₂, List.dropWhile_cons])]
  rw [searchDir_skip _ _ _
    (by simp +decide [spaces4, hostNameKey, portKey, List.isPrefixOf_cons₂, List.dropWhile_cons])]
  rw [searchDir_skip _ _ _
    (by simp +decide [spaces4, userKey, portKey, List.isPrefixOf_cons₂, List.dropWhile_cons])]
  exact searchDir_hit _ _ _ (' ' :: p) p
    (by simp +decide [spaces4, portKey, List.dropWhile_cons])
    (captureAfter_val p hp ls4)

theorem blockEntry_newBlock (n h u p : List Char) (idOpt : Option (List Char))
    (hn : Token n) (hh : Token h) (hu : Token u) (hp : Val p)
    (hid : ∀ k, idOpt = some k → Val k) :
    blockEntry (newBlockLines n h u p idOpt)
      = some { host := n, hostname := h, user := u, identity := idOpt,
               port := p, raw_config := joinLines (newBlockLines n h u p idOpt) } := by
  have hvn := token_val n hn
  have hvh := token_val h hh
  have hvu := token_val u hu
  by_cases hp22 : p = ['2', '2']
  · subst hp22
    cases idOpt with
    | none =>
      have hnbeq : newBlockLines n h u ['2', '2'] none
          = (hostSpace ++ n) :: (spaces4 ++ hostNameKey ++ ' ' :: h)
            :: (spaces4 ++ userKey ++ ' ' :: u) :: [[]] := by
        simp [newBlockLines]
      rw [hnbeq]
      have hws : (blockAllWs ((hostSpace ++ n) :: (spaces4 ++ hostNameKey ++ ' ' :: h)
          :: (spaces4 ++ userKey ++ ' ' :: u) :: [[]])
          || startsInclude ((hostSpace ++ n) :: (spaces4 ++ hostNameKey ++ ' ' :: h)
          :: (spaces4 ++ userKey ++ ' ' :: u) :: [[]])) = false := by
        simp +decide [blockAllWs, startsInclude, hostSpace, includeKey, List.isPrefixOf_cons₂]
      have hport : searchDir portKey ((hostSpace ++ n) :: (spaces4 ++ hostNameKey ++ ' ' :: h)
          :: (spaces4 ++ userKey ++ ' ' :: u) :: [[]]) = none := by
        rw [searchDir_skip _ _ _
            (by simp +decide [hostSpace, portKey, List.isPrefixOf_cons₂, List.dropWhile_cons]),
          searchDir_skip _ _ _
            (by simp +decide [spaces4, hostNameKey, portKey, List.isPrefixOf_cons₂, List.dropWhile_cons]),
          searchDir_skip _ _ _
            (by simp +decide [spaces4, userKey, portKey, List.isPrefixOf_cons₂, List.dropWhile_cons]),
          searchDir_skip _ _ _ (by decide)]
        rfl
      have hident : searchDir identityKey ((hostSpace ++ n) :: (spaces4 ++ hostNameKey ++ ' ' :: h)
          :: (spaces4 ++ userKey ++ ' ' :: u) :: [[]]) = none := by
        rw [searchDir_skip _ _ _
            (by simp +decide [hostSpace, identityKey, List.isPrefixOf_cons₂, List.dropWhile_cons]),
          searchDir_skip _ _ _
            (by simp +decide [spaces4, hostNameKey, identityKey, List.isPrefixOf_cons₂, List.dropWhile_cons]),
          searchDir_skip _ _ _
            (by simp +decide [spaces4, userKey, identityKey, List.isPrefixOf_cons₂, List.dropWhile_cons]),
          searchDir_skip _ _ _ (by decide)]
        rfl
      unfold blockEntry
      rw [if_neg (by rw [hws]; exact Bool.false_ne_true)]
      simp only [hostOf_newBlock n hvn, searchNb_hostname n h hvh, searchNb_user n h u hvu,
        hport, hident, Option.map_some', Option.map_none', Option.getD_some, Option.getD_none,
        hvn.2.1, hvh.2.1, hvu.2.1]
    | some k =>
      have hvk : Val k := hid k rfl
      have hnbeq : newBlockLines n h u ['2', '2'] (some k)
          = (hostSpace ++ n) :: (spaces4 ++ hostNameKey ++ ' ' :: h)
            :: (spaces4 ++ userKey ++ ' ' :: u)
            :: (spaces4 ++ identityKey ++ ' ' :: k) :: [[]] := by
        simp [newBlockLines]
      rw [hnbeq]
      have hws : (blockAllWs ((hostSpace ++ n) :: (spaces4 ++ hostNameKey ++ ' ' :: h)
          :: (spaces4 ++ userKey ++ ' ' :: u) :: (spaces4 ++ identityKey ++ ' ' :: k) :: [[]])
          || startsInclude ((hostSpace ++ n) :: (spaces4 ++ hostNameKey ++ ' ' :: h)
          :: (spaces4 ++ userKey ++ ' ' :: u) :: (spaces4 ++ identityKey ++ ' ' :: k) :: [[]]))
          = false := by
        simp +decide [blockAllWs, startsInclude, hostSpace, includeKey, List.isPrefixOf_cons₂]
      have hport : searchDir portKey ((hostSpace ++ n) :: (spaces4 ++ hostNameKey ++ ' ' :: h)
          :: (spaces4 ++ userKey ++ ' ' :: u) :: (spaces4 ++ identityKey ++ ' ' :: k) :: [[]])
          = none := by
        rw [searchDir_skip _ _ _
            (by simp +decide [hostSpace, portKey, List.isPrefixOf_cons₂, List.dropWhile_cons]),
          searchDir_skip _ _ _
            (by simp +decide [spaces4, hostNameKey, portKey, List.isPrefixOf_cons₂, List.dropWhile_cons]),
          searchDir_skip _ _ _
            (by simp +decide [spaces4, userKey, portKey, List.isPrefixOf_cons₂, List.dropWhile_cons]),
          searchDir_skip _ _ _
            (by simp +decide [spaces4, identityKey, portKey, List.isPrefixOf_cons₂, List.dropWhile_cons]),
          searchDir_skip _ _ _ (by decide)]
        rfl
      have hident : searchDir identityKey ((hostSpace ++ n) :: (spaces4 ++ hostNameKey ++ ' ' :: h)
          :: (spaces4 ++ userKey ++ ' ' :: u) :: (spaces4 ++ identityKey ++ ' ' :: k) :: [[]])
          = some k := by
        rw [searchDir_skip _ _ _
            (by simp +decide [hostSpace, identityKey, List.isPrefixOf_cons₂, List.dropWhile_cons]),
          searchDir_skip _ _ _
            (by simp +decide [spaces4, hostNameKey, identityKey, List.isPrefixOf_cons₂, List.dropWhile_cons]),
          searchDir_skip _ _ _
            (by simp +decide [spaces4, userKey, identityKey, List.isPrefixOf_cons₂, List.dropWhile_cons])]
        exact searchDir_hit _ _ _ (' ' :: k) k
          (by simp +decide [spaces4, identityKey, List.dropWhile_cons])
          (captureAfter_val k hvk [[]])
      unfold blockEntry
      rw [if_neg (by rw [hws]; exact Bool.false_ne_true)]
      simp only [hostOf_newBlock n hvn, searchNb_hostname n h hvh, searchNb_user n h u hvu,
        hport, hident, Option.map_some', Option.map_none', Option.getD_some, Option.getD_none,
        hvn.2.1, hvh.2.1, hvu.2.1, hvk.2.1]
  · cases idOpt with
    | none =>
      have hnbeq : newBlockLines n h u p none
          = (hostSpace ++ n) :: (spaces4 ++ hostNameKey ++ ' ' :: h)
            :: (spaces4 ++ userKey ++ ' ' :: u)
            :: (spaces4 ++ portKey ++ ' ' :: p) :: [[]] := by
        simp [newBlockLines, hp22]
      rw [hnbeq]
      have hws : (blockAllWs ((hostSpace ++ n) :: (spaces4 ++ hostNameKey ++ ' ' :: h)
          :: (spaces4 ++ userKey ++ ' ' :: u) :: (spaces4 ++ portKey ++ ' ' :: p) :: [[]])
          || startsInclude ((hostSpace ++ n) :: (spaces4 ++ hostNameKey ++ ' ' :: h)
          :: (spaces4 ++ userKey ++ ' ' :: u) :: (spaces4 ++ portKey ++ ' ' :: p) :: [[]]))
          = false := by
        simp +decide [blockAllWs, startsInclude, hostSpace, includeKey, List.isPrefixOf_cons₂]
      have hident : searchDir identityKey ((hostSpace ++ n) :: (spaces4 ++ hostNameKey ++ ' ' :: h)
          :: (spaces4 ++ userKey ++ ' ' :: u) :: (spaces4 ++ portKey ++ ' ' :: p) :: [[]])
          = none := by
        rw [searchDir_skip _ _ _
            (by simp +decide [hostSpace, identityKey, List.isPrefixOf_cons₂, List.dropWhile_cons]),
          searchDir_skip _ _ _
            (by simp +decide [spaces4, hostNameKey, identityKey, List.isPrefixOf_cons₂, List.dropWhile_cons]),
          searchDir_skip _ _ _
            (by simp +decide [spaces4, userKey, identityKey, List.isPrefixOf_cons₂, List.dropWhile_cons]),
          searchDir_skip _ _ _
            (by simp +decide [spaces4, portKey, identityKey, List.isPrefixOf_cons₂, List.dropWhile_cons]),
          searchDir_skip _ _ _ (by decide)]
        rfl
      unfold blockEntry
      rw [if_neg (by rw [hws]; exact Bool.false_ne_true)]
      simp only [hostOf_newBlock n hvn, searchNb_hostname n h hvh, searchNb_user n h u hvu,
        searchNb_port n h u p hp, hident, Option.map_some', Option.map_none',
        Option.getD_some, Option.getD_none, hvn.2.1, hvh.2.1, hvu.2.1, hp.2.1]
    | some k =>
      have hvk : Val k := hid k rfl
      have hnbeq : newBlockLines n h u p (some k)
          = (hostSpace ++ n) :: (spaces4 ++ hostNameKey ++ ' ' :: h)
            :: (spaces4 ++ userKey ++ ' ' :: u)
            :: (spaces4 ++ portKey ++ ' ' :: p)
            :: (spaces4 ++ identityKey ++ ' ' :: k) :: [[]] := by
        simp [newBlockLines, hp22]
      rw [hnbeq]
      have hws : (blockAllWs ((hostSpace ++ n) :: (spaces4 ++ hostNameKey ++ ' ' :: h)
          :: (spaces4 ++ userKey ++ ' ' :: u) :: (spaces4 ++ portKey ++ ' ' :: p)
          :: (spaces4 ++ identityKey ++ ' ' :: k) :: [[]])
          || startsInclude ((hostSpace ++ n) :: (spaces4 ++ hostNameKey ++ ' ' :: h)
          :: (spaces4 ++ userKey ++ ' ' :: u) :: (spaces4 ++ portKey ++ ' ' :: p)
          :: (spaces4 ++ identityKey ++ ' ' :: k) :: [[]])) = false := by
        simp +decide [blockAllWs, startsInclude, hostSpace, includeKey, List.isPrefixOf_cons₂]
      have hident : searchDir identityKey ((hostSpace ++ n) :: (spaces4 ++ hostNameKey ++ ' ' :: h)
          :: (spaces4 ++ userKey ++ ' ' :: u) :: (spaces4 ++ portKey ++ ' ' :: p)
          :: (spaces4 ++ identityKey ++ ' ' :: k) :: [[]]) = some k := by
        rw [searchDir_skip _ _ _
            (by simp +decide [hostSpace, identityKey, List.isPrefixOf_cons₂, List.dropWhile_cons]),
          searchDir_skip _ _ _
            (by simp +decide [spaces4, hostNameKey, identityKey, List.isPrefixOf_cons₂, List.dropWhile_cons]),
          searchDir_skip _ _ _
            (by simp +decide [spaces4, userKey, identityKey, List.isPrefixOf_cons₂, List.dropWhile_cons]),
          searchDir_skip _ _ _
            (by simp +decide [spaces4, portKey, identityKey, List.isPrefixOf_cons₂, List.dropWhile_cons])]
        exact searchDir_hit _ _ _ (' ' :: k) k
          (by simp +decide [spaces4, identityKey, List.dropWhile_cons])
          (captureAfter_val k hvk [[]])
      unfold blockEntry
      rw [if_neg (by rw [hws]; exact Bool.false_ne_true)]
      simp only [hostOf_newBlock n hvn, searchNb_hostname n h hvh, searchNb_user n h u hvu,
        searchNb_port n h u p hp, hident, Option.map_some', Option.map_none',
        Option.getD_some, Option.getD_none, hvn.2.1, hvh.2.1, hvu.2.1, hp.2.1, hvk.2.1]

theorem newBlock_head_boundary (n : List Char) :
    ∀ hn', isBoundaryLine (hostSpace ++ n) hn' = true := by
  intro hn'
  simp +decide [isBoundaryLine, hostSpace, hostKey, List.isPrefixOf_cons₂]

theorem newBlockTail_no_boundary (h u p : List Char) (idOpt : Option (List Char)) :
    ∀ l, l ∈ (spaces4 ++ hostNameKey ++ ' ' :: h) :: (spaces4 ++ userKey ++ ' ' :: u)
        :: ((if p = ['2', '2'] then [] else [spaces4 ++ portKey ++ ' ' :: p])
          ++ ((match idOpt with
               | some k => [spaces4 ++ identityKey ++ ' ' :: k]
               | none => ([] : List (List Char))) ++ [[]])) →
      ∀ hn', isBoundaryLine l hn' = false := by
  intro l hl hn'
  rcases List.mem_cons.mp hl with rfl | hl
  · simp +decide [isBoundaryLine, spaces4, hostNameKey, hostKey, List.isPrefixOf_cons₂]
  rcases List.mem_cons.mp hl with rfl | hl
  · simp +decide [isBoundaryLine, spaces4, userKey, hostKey, List.isPrefixOf_cons₂]
  rcases List.mem_append.mp hl with hl | hl
  · by_cases hp22 : p = ['2', '2']
    · rw [if_pos hp22] at hl
      cases hl
    · rw [if_neg hp22] at hl
      obtain rfl := List.mem_singleton.mp hl
      simp +decide [isBoundaryLine, spaces4, portKey, hostKey, List.isPrefixOf_cons₂]
  rcases List.mem_append.mp hl with hl | hl
  · cases idOpt with
    | none => cases hl
    | some k =>
      obtain rfl := List.mem_singleton.mp hl
      simp +decide [isBoundaryLine, spaces4, identityKey, hostKey, List.isPrefixOf_cons₂]
  · obtain rfl := List.mem_singleton.mp hl
    simp +decide [isBoundaryLine, hostKey]

theorem newBlock_mem_parseRaw (lines : List (List Char)) (n h u p : List Char)
    (idOpt : Option (List Char)) (e : HostEntry)
    (he : blockEntry (newBlockLines n h u p idOpt) = some e) :
    e ∈ parseRawLines (appendHostLines lines n h u p idOpt) := by
  have hnbshape : newBlockLines n h u p idOpt
      = (hostSpace ++ n) :: ((spaces4 ++ hostNameKey ++ ' ' :: h)
        :: (spaces4 ++ userKey ++ ' ' :: u)
        :: ((if p = ['2', '2'] then [] else [spaces4 ++ portKey ++ ' ' :: p])
          ++ ((match idOpt with
               | some k => [spaces4 ++ identityKey ++ ' ' :: k]
               | none => ([] : List (List Char))) ++ [[]]))) := by
    simp [newBlockLines]
  unfold appendHostLines
  cases lines with
  | nil =>
    rw [List.nil_append]
    rw [hnbshape] at he ⊢
    simp only [parseRawLines]
    rw [splitBlocksAux_no_boundary _ _ (fun l hl hn' =>
      newBlockTail_no_boundary h u p idOpt l hl hn')]
    simp only [List.append_assoc] at he
    simp [List.filterMap_cons, he]
  | cons l0 rest =>
    rw [List.cons_append]
    simp only [parseRawLines]
    apply List.mem_filterMap.mpr
    refine ⟨newBlockLines n h u p idOpt, ?_, he⟩
    rw [hnbshape]
    exact splitBlocksAux_mem_append _ _ (newBlock_head_boundary n)
      (fun l hl hn' => newBlockTail_no_boundary h u p idOpt l hl hn') rest [l0]

/-- C3 counterexample: appending with the empty (trimmed) port string and an
empty identity path writes the lines `    Port ` and `    IdentityFile `;
the parser's regex does not accept either dangling directive as written —
instead `Port`'s `\s+` crosses the newline and captures `IdentityFile` from
the following line, and the identity comes back absent.  So the parsed entry
does not reproduce the supplied port and identity. -/
theorem c3_counterexample :
    (parseLines (appendHostLines [[]] "a".data "b".data "c".data [] (some []))).map
        (fun e => (e.host, e.port, e.identity))
      = [("a".data, "IdentityFile".data, none)] ∧
    ∀ e ∈ parseLines (appendHostLines [[]] "a".data "b".data "c".data [] (some [])),
      ¬(e.port = [] ∧ e.identity = some []) := by decide

/-- C3 (amended): for any valid field combination — non-empty whitespace-free
name, hostname and user, a non-empty trimmed newline-free port string, and
either a non-empty trimmed newline-free identity path or password
authentication — appending the host and parsing the resulting file yields an
entry whose host, hostname, user, port (the supplied string, hence `"22"`
when the default was supplied) and identity equal the supplied values. -/
theorem c3_roundtrip (lines : List (List Char)) (n h u p : List Char)
    (idOpt : Option (List Char))
    (hn : Token n) (hh : Token h) (hu : Token u) (hp : Val p)
    (hid : ∀ k, idOpt = some k → Val k) :
    ∃ e ∈ parseLines (appendHostLines lines n h u p idOpt),
      e.host = n ∧ e.hostname = h ∧ e.user = u ∧ e.port = p ∧ e.identity = idOpt := by
  have hbE := blockEntry_newBlock n h u p idOpt hn hh hu hp hid
  refine ⟨{ host := n, hostname := h, user := u, identity := idOpt, port := p,
            raw_config := joinLines (newBlockLines n h u p idOpt) },
    ?_, rfl, rfl, rfl, rfl, rfl⟩
  have hmem := newBlock_mem_parseRaw lines n h u p idOpt _ hbE
  unfold parseLines
  exact (List.perm_insertionSort EntryLe _).mem_iff.mpr hmem

/-- Witness for C3 (amended), matching the spec's own append example. -/
theorem c3_roundtrip_witness :
    Token "gamma".data ∧ Val "2222".data ∧
    ∃ e ∈ parseLines (appendHostLines [[]] "gamma".data "10.0.0.3".data "deploy".data
        "2222".data (some "/home/u/key".data)),
      e.host = "gamma".data ∧ e.hostname = "10.0.0.3".data ∧ e.user = "deploy".data ∧
      e.port = "2222".data ∧ e.identity = some "/home/u/key".data :=
  ⟨by decide, by decide,
    c3_roundtrip [[]] _ _ _ _ _ (by decide) (by decide) (by decide) (by decide)
      (fun k hk => by
        injection hk with h2
        exact h2 ▸ (show Val "/home/u/key".data by decide))⟩
